import Mathlib

set_option allowUnsafeReducibility true
attribute [local semireducible] Rat.add Rat.mul Rat.sub Rat.inv Rat.div Rat.ofScientific

/-!
Verification of the explainability / inference-orchestration engine of the
Alzheimer-AI backend (`src/backend`): a shallow embedding in Lean 4 of the
prediction calibration and ranking code in `app.py` and of the explanation
algorithms in `explanations.py` and `gradcam.py`, together with theorems
settling the behavioural claims about them.

Modelling conventions:
* numpy float arrays are modelled over `ℚ` (exact arithmetic); the claims
  under study are about control flow, ordering, ranges and zero guards,
  none of which depend on rounding.  The temperature-softmax adapter is the
  one exception and is modelled over `ℝ` because it genuinely needs `exp`.
* a `(1, H, W, C)` input batch is modelled as the single image it contains,
  `Image := List (List (List ℚ))` (rows, columns, channels).
* Python's stable `list.sort` / `sorted` and (for short arrays) `np.argsort`
  are modelled by `List.insertionSort`, which is stable and structurally
  recursive, hence kernel-computable.
* numpy's in-place mutation of arrays (`inp.copy()` followed by slice
  assignment in the occlusion scan) is modelled with an explicit store of
  arrays, `Store := List Image`, so that the frame claim about the caller's
  array is a real statement and not a vacuity of a pure embedding.
-/

/-- One channel-last image, the single element of a `(1, H, W, C)` batch. -/
abbrev Image := List (List (List ℚ))

/-- The per-row, per-pixel channel counts of an image: its full shape. -/
def imgShape (img : Image) : List (List Nat) :=
  img.map (fun row => row.map List.length)

/-- `inp.shape[1]` of the batch: number of rows. -/
def imgHeight (img : Image) : Nat := img.length

/-- `inp.shape[2]` of the batch: number of columns (first row's length). -/
def imgWidth (img : Image) : Nat := (img.getD 0 []).length

/-- Elementwise map over an image. -/
def imgMap (g : ℚ → ℚ) : Image → Image :=
  List.map (List.map (List.map g))

/-- Elementwise combination of two images. -/
def imgZip (op : ℚ → ℚ → ℚ) : Image → Image → Image :=
  List.zipWith (List.zipWith (List.zipWith op))

/-- `np.full_like(img, b)`: a constant image with the shape of `img`. -/
def imgConstLike (img : Image) (b : ℚ) : Image :=
  imgMap (fun _ => b) img

/-- `arr.mean(axis=-1)`: per-pixel mean over channels. -/
def channelMean : Image → List (List ℚ) :=
  List.map (List.map (fun px => px.sum / (px.length : ℚ)))

/-- Maximum entry of a 2-D array, with seed `0`.  It embeds `np.max` /
`tf.reduce_max` on the arrays it is applied to, which are all elementwise
non-negative (post-ReLU or absolute-value maps), so the `0` seed is neutral. -/
def matFoldMax (m : List (List ℚ)) : ℚ :=
  m.flatten.foldr max 0

/-- Every entry of a 2-D array is zero. -/
def matAllZero (m : List (List ℚ)) : Prop :=
  ∀ row ∈ m, ∀ v ∈ row, v = 0

/-- `np.argmax` on a 1-D vector: index of the first occurrence of the
maximum.  `best` is the running best value, `i` the index of the next
element, `bi` the index of the running best. -/
def argmaxAux : List ℚ → ℚ → Nat → Nat → Nat
  | [], _, _, bi => bi
  | v :: rest, best, i, bi =>
    if best < v then argmaxAux rest v (i + 1) i else argmaxAux rest best (i + 1) bi

/-- `int(np.argmax(l))`; `0` on the empty vector (unreachable in the code). -/
def argmaxFirst (l : List ℚ) : Nat :=
  match l with
  | [] => 0
  | v :: rest => argmaxAux rest v 1 0

/-- `np.argsort(probs)`: indices sorted by ascending probability.  Ties are
put in ascending index order (a stable sort; numpy's introsort degenerates
to the stable insertion sort on arrays as short as a class vector). -/
def argsortAsc (probs : List ℚ) : List Nat :=
  List.insertionSort
    (fun i j => probs.getD i 0 < probs.getD j 0 ∨
      (probs.getD i 0 = probs.getD j 0 ∧ i ≤ j))
    (List.range probs.length)

/-- `np.argsort(probs)[::-1]`, the descending ranking used by `predict`. -/
def argsortDesc (probs : List ℚ) : List Nat :=
  (argsortAsc probs).reverse

/-- `top1 = int(order[0])` (line 143 of `app.py`). -/
def top1Of (probs : List ℚ) : Nat :=
  (argsortDesc probs).getD 0 0

/-- `top2 = int(order[1]) if len(order) > 1 else int(order[0])`. -/
def top2Of (probs : List ℚ) : Nat :=
  if 1 < (argsortDesc probs).length then (argsortDesc probs).getD 1 0
  else (argsortDesc probs).getD 0 0

/-- `margin = float(probs[top1] - probs[top2]) if len(order) > 1 else float(probs[top1])`. -/
def marginOf (probs : List ℚ) : ℚ :=
  if 1 < (argsortDesc probs).length then
    probs.getD (top1Of probs) 0 - probs.getD (top2Of probs) 0
  else probs.getD (top1Of probs) 0

/-- Modelled from the spec: the ranking the claim describes, descending by
probability with ties broken by the LOWEST class index.  Used only to be
compared with the ranking the code actually computes. -/
def rankBySpec (probs : List ℚ) : List Nat :=
  List.insertionSort
    (fun i j => probs.getD j 0 < probs.getD i 0 ∨
      (probs.getD i 0 = probs.getD j 0 ∧ i ≤ j))
    (List.range probs.length)

/-- The uniform 4-class distribution of the tie-break scenario. -/
def uniform4 : List ℚ := [1/4, 1/4, 1/4, 1/4]

/-! ## Occlusion sensitivity (`explanations.py`, `compute_occlusion_sensitivity`)

The model is an opaque prediction function `f : Image → List ℚ` (spec §3:
the engine receives an already-loaded callable model).  The numpy arrays
live in an explicit `Store`; `inp.copy()` appends a fresh copy and the
slice assignment `occluded[0, y:y+p, x:x+p, :] = 0.0` mutates only that
fresh entry, so the frame behaviour of the scan is faithfully represented.
-/

/-- A store of numpy arrays, addressed by position. -/
abbrev Store := List Image

/-- The grid coordinates of one axis: Python's
`range(0, dim - patch_size + 1, stride)` evaluated over the integers (an
empty range when `dim - patch_size + 1 ≤ 0`).  `stride` is positive at
every call site. -/
def occlusionGrid (dim patch stride : Nat) : List Nat :=
  if dim + 1 ≤ patch then []
  else (List.range ((dim - patch) / stride + 1)).map (fun i => i * stride)

/-- The `(y, x)` pairs visited by the two nested loops of the scan. -/
def occlusionPositions (H W patch stride : Nat) : List (Nat × Nat) :=
  ((occlusionGrid H patch stride).map (fun y =>
    (occlusionGrid W patch stride).map (fun x => (y, x)))).flatten

/-- `occluded[0, y : y + patch, x : x + patch, :] = 0.0`: zero every channel
of the pixels of the `patch × patch` square at `(y, x)`. -/
def occludeImage (img : Image) (y x patch : Nat) : Image :=
  img.mapIdx (fun r row =>
    if y ≤ r ∧ r < y + patch then
      row.mapIdx (fun c px =>
        if x ≤ c ∧ c < x + patch then px.map (fun _ => (0 : ℚ)) else px)
    else row)

/-- An occlusion region record `{bbox: [x, y, patch, patch], delta}`. -/
structure OcclRegion where
  rx : Nat
  ry : Nat
  rw : Nat
  rh : Nat
  delta : ℚ
deriving DecidableEq, Repr

/-- The grid parameters echoed in the result. -/
structure OcclGrid where
  patchSize : Nat
  stride : Nat
  height : Nat
  width : Nat
deriving DecidableEq, Repr

/-- The result dictionary of `compute_occlusion_sensitivity`. -/
structure OcclOut where
  predicted_index : Nat
  base_confidence : ℚ
  regions : List OcclRegion
  grid : OcclGrid
deriving DecidableEq, Repr

/-- The record produced for one grid position `(y, x)`:
`delta = base_conf - probs[top_idx]` with the probabilities re-computed on
the occluded copy of the input. -/
def regionOf (f : Image → List ℚ) (patch topIdx : Nat) (baseConf : ℚ)
    (inp : Image) (pos : Nat × Nat) : OcclRegion :=
  { rx := pos.2, ry := pos.1, rw := patch, rh := patch,
    delta := baseConf - (f (occludeImage inp pos.1 pos.2 patch)).getD topIdx 0 }

/-- One iteration of the scan loop: `occluded = inp.copy()` (append a copy
of the array at `inpAddr` to the store), zero the patch in place in that
copy, re-run prediction on it and append the delta record. -/
def occlusionStep (f : Image → List ℚ) (patch inpAddr topIdx : Nat)
    (baseConf : ℚ) (acc : Store × List OcclRegion) (pos : Nat × Nat) :
    Store × List OcclRegion :=
  let store := acc.1
  let inp := store.getD inpAddr []
  let newAddr := store.length
  let store1 := store ++ [inp]
  let store2 := store1.set newAddr (occludeImage inp pos.1 pos.2 patch)
  let probs := f (store2.getD newAddr [])
  (store2, acc.2 ++ [{ rx := pos.2, ry := pos.1, rw := patch, rh := patch,
                       delta := baseConf - probs.getD topIdx 0 }])

/-- The loop of `compute_occlusion_sensitivity` (lines 33–46): the final
store and the list of per-position delta records, in visit order. -/
def occlusionScan (f : Image → List ℚ) (store : Store) (inpAddr patch stride : Nat) :
    Store × List OcclRegion :=
  let inp := store.getD inpAddr []
  let base := f inp
  let topIdx := argmaxFirst base
  let baseConf := base.getD topIdx 0
  (occlusionPositions (imgHeight inp) (imgWidth inp) patch stride).foldl
    (occlusionStep f patch inpAddr topIdx baseConf) (store, [])

/-- `compute_occlusion_sensitivity(model, input_batch, patch_size, stride, top_k)`:
scan, then sort the records by `delta` descending (Python's stable
`list.sort(..., reverse=True)`) and keep the first `top_k`. -/
def compute_occlusion_sensitivity (f : Image → List ℚ) (store : Store)
    (inpAddr patch stride topK : Nat) : Store × OcclOut :=
  let inp := store.getD inpAddr []
  let base := f inp
  let topIdx := argmaxFirst base
  let baseConf := base.getD topIdx 0
  let scan := occlusionScan f store inpAddr patch stride
  let influential :=
    (List.insertionSort (fun a b : OcclRegion => b.delta ≤ a.delta) scan.2).take topK
  (scan.1,
   { predicted_index := topIdx, base_confidence := baseConf,
     regions := influential,
     grid := { patchSize := patch, stride := stride,
               height := imgHeight inp, width := imgWidth inp } })

/-! ## Integrated gradients (`explanations.py`, `compute_integrated_gradients`)

The model's gradient is abstracted as `g : Image → Image`, the gradient of
the target-class logit with respect to the input (spec §9: an abstract
`gradient(targetLogitIndex, withRespectTo)` capability).  The target index
is always supplied by the caller in this repository (`target_index=pred_index`),
so the `argmax` fallback of lines 82–84 is not modelled; the `summary`
statistics dictionary (floating mean/std) is likewise outside every claim
and not modelled. -/

/-- `tf.linspace(0.0, 1.0, n)`: `n` evenly spaced fractions, both ends
included when `n ≥ 2`, `[0]` when `n = 1`, `[]` when `n = 0`. -/
def linspace01 (n : Nat) : List ℚ :=
  (List.range n).map (fun i => if n ≤ 1 then 0 else (i : ℚ) / ((n : ℚ) - 1))

/-- The value of the `attributions` array after line 103 of
`explanations.py`: gradients accumulated over the interpolation path, then
multiplied elementwise by `(inp - baseline_img) / steps`. -/
def igScaledAttributions (g : Image → Image) (inp : Image) (baseline : ℚ)
    (steps : Nat) : Image :=
  let baseline_img := imgConstLike inp baseline
  let attributions := (linspace01 steps).foldl
    (fun acc alpha =>
      imgZip (· + ·) acc
        (g (imgZip (· + ·) baseline_img
          (imgMap (fun d => alpha * d) (imgZip (· - ·) inp baseline_img)))))
    (imgConstLike inp 0)
  imgZip (· * ·) attributions
    (imgMap (fun d => d / (steps : ℚ)) (imgZip (· - ·) inp baseline_img))

/-- The result dictionary of `compute_integrated_gradients`. -/
structure IgOut where
  target_index : Nat
  height : Nat
  width : Nat
  map : List (List ℚ)
  signed_map : Option (List (List ℚ))
deriving DecidableEq, Repr

/-- `compute_integrated_gradients(model, input_batch, target_index, baseline,
steps, return_signed)`: channel-mean the scaled attributions into a signed
map, normalise its magnitude (`max` guarded to `1` when zero), and rescale
the signed map by its own maximum absolute value (`or 1.0` when zero). -/
def compute_integrated_gradients (g : Image → Image) (inp : Image)
    (target_index : Nat) (baseline : ℚ) (steps : Nat) (return_signed : Bool) :
    IgOut :=
  let signed_map := channelMean (igScaledAttributions g inp baseline steps)
  let magnitude_map := signed_map.map (List.map (fun v => |v|))
  let max_val := if 0 < matFoldMax magnitude_map then matFoldMax magnitude_map else 1
  let norm_mag := magnitude_map.map (List.map (fun v => v / max_val))
  let max_abs := if matFoldMax magnitude_map = 0 then 1 else matFoldMax magnitude_map
  { target_index := target_index, height := imgHeight inp, width := imgWidth inp,
    map := norm_mag,
    signed_map :=
      if return_signed then some (signed_map.map (List.map (fun v => v / max_abs)))
      else none }

/-! ## Saliency heatmaps (`gradcam.py`)

Grad-CAM's feature extraction is framework work outside the engine's
algebra; the algorithmic content starts from the last conv layer's output
`conv : H' × W' × K` and the spatially pooled gradients `pooled : K`
(lines 50–54).  The input-gradient fallback starts from the raw input
gradient `grads : H × W × C` (line 92). -/

/-- Lines 56–58 and 95–97: `relu`, then divide by `max + 1e-12` when the
maximum is positive, else return unchanged. -/
def normalizeHeatmap (m : List (List ℚ)) : List (List ℚ) :=
  let r := m.map (List.map (fun v => max v 0))
  let mx := matFoldMax r
  if 0 < mx then r.map (List.map (fun v => v / (mx + 1e-12))) else r

/-- The ReLU-clipped pre-normalisation heatmap (the value after line 56 /
line 95). -/
def reluMat (m : List (List ℚ)) : List (List ℚ) :=
  m.map (List.map (fun v => max v 0))

/-- Line 54: `reduce_sum(pooled_grads * conv_outputs, axis=-1)`. -/
def gradcamRaw (pooled : List ℚ) (conv : List (List (List ℚ))) :
    List (List ℚ) :=
  conv.map (List.map (fun px => (List.zipWith (· * ·) pooled px).sum))

/-- `make_gradcam_heatmap` from the conv outputs and pooled gradients. -/
def make_gradcam_heatmap (pooled : List ℚ) (conv : List (List (List ℚ))) :
    List (List ℚ) :=
  normalizeHeatmap (gradcamRaw pooled conv)

/-- Line 94: `reduce_max(abs(grads), axis=-1)[0]`, the per-pixel maximum
absolute channel gradient (seed `0`; channels are non-empty in the code). -/
def inputGradAbsMax (grads : Image) : List (List ℚ) :=
  grads.map (List.map (fun px => (px.map (fun v => |v|)).foldr max 0))

/-- `make_input_gradient_heatmap` from the input gradient. -/
def make_input_gradient_heatmap (grads : Image) : List (List ℚ) :=
  normalizeHeatmap (inputGradAbsMax grads)

/-! ## ROI contributions (`explanations.py`, `compute_roi_contributions`) -/

/-- `np.sum(np.clip(m, 0, None))`: total positive mass. -/
def clipPosSum (m : List (List ℚ)) : ℚ :=
  (m.map (fun row => (row.map (fun v => max v 0)).sum)).sum

/-- `np.sum(np.clip(m, None, 0))`: total negative mass (always `≤ 0`). -/
def clipNegSum (m : List (List ℚ)) : ℚ :=
  (m.map (fun row => (row.map (fun v => min v 0)).sum)).sum

/-- `m[y : y + h, x : x + w]` (numpy slicing clamps at the borders, exactly
as `List.drop`/`List.take` do). -/
def matSlice (m : List (List ℚ)) (x y w h : Nat) : List (List ℚ) :=
  ((m.drop y).take h).map (fun row => (row.drop x).take w)

/-- `rect(px, py, pw, ph)`: the proportional bounding box
`[int(px*W), int(py*H), int(pw*W), int(ph*H)]` (`int` truncation on
non-negative values is the floor). -/
def roiRect (W H : Nat) (px py pw ph : ℚ) : List Nat :=
  [⌊px * W⌋₊, ⌊py * H⌋₊, ⌊pw * W⌋₊, ⌊ph * H⌋₊]

/-- The five fixed proportional ROIs of lines 147–153. -/
def roiList (H W : Nat) : List (String × List Nat) :=
  [("Left Medial Temporal (hippocampal region)", roiRect W H 0.10 0.45 0.18 0.20),
   ("Right Medial Temporal (hippocampal region)", roiRect W H 0.72 0.45 0.18 0.20),
   ("Frontal Lobe", roiRect W H 0.20 0.10 0.60 0.20),
   ("Parietal Lobe", roiRect W H 0.20 0.30 0.60 0.20),
   ("Occipital Lobe", roiRect W H 0.25 0.70 0.50 0.20)]

/-- One ROI result record. -/
structure RoiRec where
  name : String
  bbox : List Nat
  positivePercent : ℚ
  negativePercent : ℚ
  direction : String
deriving DecidableEq, Repr

/-- The record built for one ROI (lines 159–174): percentages of the global
positive / absolute negative mass, each guarded to `0` when the
corresponding global mass is zero, and the dominant direction. -/
def mkRoiRec (m : List (List ℚ)) (posTotal negTotal : ℚ)
    (roi : String × List Nat) : RoiRec :=
  let x := roi.2.getD 0 0
  let y := roi.2.getD 1 0
  let w := roi.2.getD 2 0
  let h := roi.2.getD 3 0
  let sub := matSlice m x y w h
  let posSum := clipPosSum sub
  let negSum := clipNegSum sub
  { name := roi.1, bbox := roi.2,
    positivePercent := if 0 < posTotal then posSum / posTotal * 100 else 0,
    negativePercent := if negTotal < 0 then |negSum| / |negTotal| * 100 else 0,
    direction := if |negSum| ≤ posSum then ("increased") else ("decreased") }

/-- `compute_roi_contributions(signed_map, labels)`: build the five records
(`pos_total` floored to `1e-8` when the positive mass is zero — Python's
`or 1e-8`) and sort them descending by `max(positivePercent,
negativePercent)` (stable). The `labels` argument is never read. -/
def compute_roi_contributions (m : List (List ℚ))
    (labels : Option (List String)) : List RoiRec :=
  let H := m.length
  let W := (m.getD 0 []).length
  let posTotal := if clipPosSum m = 0 then 1e-8 else clipPosSum m
  let negTotal := clipNegSum m
  let results := (roiList H W).map (mkRoiRec m posTotal negTotal)
  List.insertionSort
    (fun a b : RoiRec =>
      max b.positivePercent b.negativePercent ≤
        max a.positivePercent a.negativePercent)
    results

/-! ## Temperature-scaled calibration (`app.py` lines 129–136)

`preds = MODEL.predict(arr_pp)[0]` is either a 1-D vector or (for models
with structured outputs) a higher-dimensional array; line 136 branches on
`logits.ndim == 1` only.  This part is modelled over `ℝ` because softmax
needs `exp`. -/

/-- A numpy array that is either 1-D or not, the only distinction line 136
inspects. -/
inductive PredsArray where
  | oneD (v : List ℝ)
  | nd (a : List (List ℝ))

/-- `tf.nn.softmax` on a 1-D vector. -/
noncomputable def softmax (v : List ℝ) : List ℝ :=
  let exps := v.map Real.exp
  exps.map (fun e => e / exps.sum)

/-- Line 136's 1-D branch: `softmax(logits / max(1e-6, temp))`. -/
noncomputable def calibrate1d (logits : List ℝ) (temp : ℝ) : List ℝ :=
  softmax (logits.map (fun z => z / max 1e-6 temp))

/-- Lines 135–136: apply temperature-scaled softmax iff the raw output is
1-dimensional; any other output is passed through unchanged. -/
noncomputable def probsOf (preds : PredsArray) (temp : ℝ) : PredsArray :=
  match preds with
  | .oneD v => .oneD (calibrate1d v temp)
  | .nd a => .nd a

/-- Modelled from the spec: "probability-like vector (non-negative,
sums≈1)", the condition under which the claim says the output is used
as-is (tolerance `1e-4` from spec §8). -/
def probLikeSpec (v : List ℝ) : Prop :=
  (∀ x ∈ v, 0 ≤ x) ∧ |v.sum - 1| ≤ 1e-4

/-! ## The predict orchestrator (`app.py` lines 168–207)

Only the `EXPLAIN_LEVEL` gating and the response assembly are modelled;
the prediction fields computed earlier in `predict` enter as a record, and
the heavy explanation computations as already-computed values (their
algorithms are modelled separately above).  Crucially, `occlusion` and
`ig` are initialised to `None` before the `if` (lines 169–170) but
`roi_contrib` is not: it is only ever assigned inside the
`explanations_level == "full"` branch (lines 182–189), while the response
dictionary (line 205) reads it unconditionally.  A Python local that may
be unbound is modelled as an outer `Option`; reading it while unbound
raises `NameError`, modelled as `Except.error`. -/

/-- Python's `str.lower()` on the configuration value, written over the
character list so that it is kernel-computable (`String.mapAux` is not). -/
def strLower (s : String) : String :=
  ⟨s.data.map Char.toLower⟩

/-- The prediction fields of the response (computed before line 168). -/
structure PredictCore where
  predicted_index : Nat
  predicted_label : String
  confidence : ℚ
  probabilities : List ℚ
  top2 : List (Nat × ℚ)
  margin : ℚ
  heatmap : String
deriving DecidableEq, Repr

/-- The JSON response of `/predict`. -/
structure PredictResponse where
  predicted_index : Nat
  predicted_label : String
  confidence : ℚ
  probabilities : List ℚ
  top2 : List (Nat × ℚ)
  margin : ℚ
  heatmap : String
  explanations_level : String
  occlusion : Option OcclOut
  integratedGradients : Option IgOut
  roiContributions : Option (List RoiRec)
deriving DecidableEq, Repr

/-- Lines 168–207 of `predict`: `explanations_level =
os.getenv("EXPLAIN_LEVEL", "full").lower()`; in full mode compute the three
explanation payloads, otherwise leave `occlusion`/`ig` at `None` and
`roi_contrib` unbound; then assemble the response, which reads all three. -/
def predictAssemble (envLevel : Option String) (core : PredictCore)
    (occlVal : OcclOut) (igVal : IgOut) (roiVal : Option (List RoiRec)) :
    Except String PredictResponse :=
  let explanations_level := strLower (envLevel.getD ("full"))
  let occlusion : Option OcclOut := none
  let ig : Option IgOut := none
  let roiUnbound : Option (Option (List RoiRec)) := none
  let state :=
    if explanations_level = "full" then
      (some occlVal, some igVal, some roiVal)
    else (occlusion, ig, roiUnbound)
  match state.2.2 with
  | some roi_contrib =>
    Except.ok
      { predicted_index := core.predicted_index,
        predicted_label := core.predicted_label,
        confidence := core.confidence,
        probabilities := core.probabilities,
        top2 := core.top2,
        margin := core.margin,
        heatmap := core.heatmap,
        explanations_level := explanations_level,
        occlusion := state.1,
        integratedGradients := state.2.1,
        roiContributions := roi_contrib }
  | none => Except.error ("NameError: name 'roi_contrib' is not defined")

/-! ## Concrete values used by witnesses and counterexamples -/

/-- A sample core-field record. -/
def coreEx : PredictCore :=
  { predicted_index := 0, predicted_label := "NonDemented", confidence := 1,
    probabilities := [1, 0], top2 := [(0, 1), (1, 0)], margin := 1,
    heatmap := "data-uri" }

/-- A sample occlusion payload. -/
def occlEx : OcclOut :=
  { predicted_index := 0, base_confidence := 1, regions := [],
    grid := { patchSize := 48, stride := 32, height := 224, width := 224 } }

/-- A sample integrated-gradients payload. -/
def igEx : IgOut :=
  { target_index := 0, height := 1, width := 1, map := [[0]],
    signed_map := some [[0]] }

/-- A 224 × 224 × 1 all-zero test image. -/
def img224 : Image :=
  List.replicate 224 (List.replicate 224 [(0 : ℚ)])

/-- A 2 × 2 × 1 test image. -/
def img2 : Image := [[[1], [2]], [[3], [4]]]

/-- A toy two-class model: confidence `1` on class `0` unless the centre
pixel of the first row is zeroed. -/
def toyModel (img : Image) : List ℚ :=
  if (img.getD 0 []).getD 0 [] = [(0 : ℚ)] then [1/2, 1/2] else [1, 0]

/-! ## Theorems -/

/-- Any relation of the shape used by the descending sorts below is total. -/
theorem rankRel_total (probs : List ℚ) :
    ∀ i j : Nat,
      (probs.getD i 0 < probs.getD j 0 ∨ (probs.getD i 0 = probs.getD j 0 ∧ i ≤ j)) ∨
      (probs.getD j 0 < probs.getD i 0 ∨ (probs.getD j 0 = probs.getD i 0 ∧ j ≤ i)) := by
  intro i j
  rcases lt_trichotomy (probs.getD i 0) (probs.getD j 0) with h | h | h
  · exact Or.inl (Or.inl h)
  · rcases le_total i j with hij | hij
    · exact Or.inl (Or.inr ⟨h, hij⟩)
    · exact Or.inr (Or.inr ⟨h.symm, hij⟩)
  · exact Or.inr (Or.inl h)

/-- C1.  The claim says: for `EXPLAIN_LEVEL` unset or different from
`"full"`, `/predict` skips occlusion, integrated gradients and ROI and
still returns the prediction fields.  The code disagrees twice.  First,
for any value other than `"full"` the response assembly reads the local
`roi_contrib`, which is only assigned inside the `"full"` branch, so the
request dies with a `NameError` instead of returning a response (this is
the bug: `occlusion` and `ig` are pre-initialised on lines 169–170, and
the clear intent — also spec §7 — is `roi_contrib = None` likewise).
Second, an *unset* `EXPLAIN_LEVEL` defaults to `"full"` and runs the full
explanation pipeline rather than skipping it. -/
theorem explain_level_gate_c1 :
    predictAssemble (some "fast") coreEx occlEx igEx none =
      Except.error ("NameError: name 'roi_contrib' is not defined") ∧
    (∀ (envLevel : Option String) (core : PredictCore) (occl : OcclOut)
      (ig : IgOut) (roi : Option (List RoiRec)),
      strLower (envLevel.getD ("full")) ≠ "full" →
      predictAssemble envLevel core occl ig roi =
        Except.error ("NameError: name 'roi_contrib' is not defined")) ∧
    (∃ resp, predictAssemble none coreEx occlEx igEx (some []) = Except.ok resp ∧
      resp.explanations_level = "full" ∧ resp.occlusion = some occlEx ∧
      resp.integratedGradients = some igEx ∧
      resp.predicted_index = coreEx.predicted_index ∧
      resp.probabilities = coreEx.probabilities) := by
  refine ⟨rfl, ?_, ⟨_, rfl, rfl, rfl, rfl, rfl, rfl⟩⟩
  intro envLevel core occl ig roi h
  unfold predictAssemble
  simp only [if_neg h]

/-- Witness for the universally quantified part of `explain_level_gate_c1`:
`EXPLAIN_LEVEL=LOW` (any casing) also raises the `NameError`. -/
theorem explain_level_gate_c1_witness :
    predictAssemble (some "LOW") coreEx occlEx igEx (some []) =
      Except.error ("NameError: name 'roi_contrib' is not defined") :=
  explain_level_gate_c1.2.1 (some "LOW") coreEx occlEx igEx (some []) (by decide)

/-- C3 counterexample.  The claim says top-1/top-2 selection breaks ties by
the LOWEST class index, so on the uniform distribution the ranking would
start with class 0.  The code ranks with `np.argsort(probs)[::-1]`, which
puts ties in DESCENDING index order: on `[0.25, 0.25, 0.25, 0.25]` the
selection yields `top1 = 3`, not `0` (the separately computed
`predicted_index = argmax = 0` masks this in the scenario's other half). -/
theorem ranking_tiebreak_c3_counterexample :
    rankBySpec uniform4 = [0, 1, 2, 3] ∧
    argsortDesc uniform4 = [3, 2, 1, 0] ∧
    top1Of uniform4 = 3 ∧ top1Of uniform4 ≠ (rankBySpec uniform4).getD 0 0 := by
  decide

/-- C3 amended: the ranking is descending in probability with ties broken
by the HIGHEST class index (the reverse of a stable ascending argsort);
the separately computed predicted index uses `np.argmax`, i.e. the lowest
maximising index; on uniform `[0.25, 0.25, 0.25, 0.25]` this gives
`predictedIndex = 0` and `margin = 0.0` as the scenario states, but
`top1 = 3` and `top2 = 2`. -/
theorem ranking_tiebreak_c3_amended (probs : List ℚ) :
    List.Pairwise
      (fun i j => probs.getD j 0 < probs.getD i 0 ∨
        (probs.getD i 0 = probs.getD j 0 ∧ j ≤ i)) (argsortDesc probs) ∧
    argmaxFirst uniform4 = 0 ∧ marginOf uniform4 = 0 ∧
    top1Of uniform4 = 3 ∧ top2Of uniform4 = 2 := by
  refine ⟨?_, by decide, by decide, by decide, by decide⟩
  haveI ht : IsTotal Nat (fun i j =>
      probs.getD i 0 < probs.getD j 0 ∨
        (probs.getD i 0 = probs.getD j 0 ∧ i ≤ j)) :=
    ⟨fun a b => rankRel_total probs a b⟩
  haveI htr : IsTrans Nat (fun i j =>
      probs.getD i 0 < probs.getD j 0 ∨
        (probs.getD i 0 = probs.getD j 0 ∧ i ≤ j)) :=
    ⟨fun a b c hab hbc => by
      rcases hab with h1 | ⟨h1, h1'⟩ <;> rcases hbc with h2 | ⟨h2, h2'⟩
      · exact Or.inl (h1.trans h2)
      · exact Or.inl (h2 ▸ h1)
      · exact Or.inl (h1 ▸ h2)
      · exact Or.inr ⟨h1.trans h2, h1'.trans h2'⟩⟩
  have hs := List.sorted_insertionSort
    (fun i j => probs.getD i 0 < probs.getD j 0 ∨
      (probs.getD i 0 = probs.getD j 0 ∧ i ≤ j))
    (List.range probs.length)
  have hrev := List.pairwise_reverse.mpr hs
  exact hrev.imp (fun h => h.imp id (fun hh => ⟨hh.1.symm, hh.2⟩))

/-- One scan iteration grows the store by exactly one array. -/
theorem occlusionStep_length (f : Image → List ℚ) (patch inpAddr topIdx : Nat)
    (baseConf : ℚ) (acc : Store × List OcclRegion) (pos : Nat × Nat) :
    (occlusionStep f patch inpAddr topIdx baseConf acc pos).1.length =
      acc.1.length + 1 := by
  simp [occlusionStep]

/-- One scan iteration never touches a pre-existing store entry: the copy
is appended at the end and only the copy is mutated. -/
theorem occlusionStep_get (f : Image → List ℚ) (patch inpAddr topIdx : Nat)
    (baseConf : ℚ) (acc : Store × List OcclRegion) (pos : Nat × Nat)
    (i : Nat) (hi : i < acc.1.length) :
    (occlusionStep f patch inpAddr topIdx baseConf acc pos).1[i]? = acc.1[i]? := by
  have hne : acc.1.length ≠ i := Nat.ne_of_gt hi
  simp only [occlusionStep]
  rw [List.getElem?_set_ne hne, List.getElem?_append_left hi]

/-- The whole scan fold never touches a pre-existing store entry. -/
theorem occlusionFold_get (f : Image → List ℚ) (patch inpAddr topIdx : Nat)
    (baseConf : ℚ) (positions : List (Nat × Nat)) (acc : Store × List OcclRegion)
    (i : Nat) (hi : i < acc.1.length) :
    (positions.foldl (occlusionStep f patch inpAddr topIdx baseConf) acc).1[i]? =
      acc.1[i]? := by
  induction positions generalizing acc with
  | nil => rfl
  | cons p ps ih =>
    have hi1 : i < (occlusionStep f patch inpAddr topIdx baseConf acc p).1.length := by
      rw [occlusionStep_length]; omega
    calc (List.foldl (occlusionStep f patch inpAddr topIdx baseConf)
            (occlusionStep f patch inpAddr topIdx baseConf acc p) ps).1[i]?
        = (occlusionStep f patch inpAddr topIdx baseConf acc p).1[i]? := ih _ hi1
      _ = acc.1[i]? := occlusionStep_get f patch inpAddr topIdx baseConf acc p i hi

/-- C8.  The occlusion scan leaves the caller's input array unchanged: the
store entry at the input's address is the same after
`compute_occlusion_sensitivity` as before it (every iteration zeroes its
patch in a fresh copy appended by `inp.copy()`, never in the caller-owned
array). -/
theorem occlusion_preserves_input_c8 (f : Image → List ℚ) (store : Store)
    (inpAddr patch stride topK : Nat) (h : inpAddr < store.length) :
    (compute_occlusion_sensitivity f store inpAddr patch stride topK).1[inpAddr]? =
      store[inpAddr]? := by
  exact occlusionFold_get f patch inpAddr _ _ _ (store, []) inpAddr h

/-- Witness for `occlusion_preserves_input_c8` on a concrete 2×2 image. -/
theorem occlusion_preserves_input_c8_witness :
    (compute_occlusion_sensitivity toyModel [img2] 0 1 1 5).1[0]? = [img2][0]? :=
  occlusion_preserves_input_c8 toyModel [img2] 0 1 1 5 (by decide)

/-- One scan iteration appends exactly the record `regionOf` describes:
its probabilities are computed on the freshly occluded copy of the array
currently stored at the input's address. -/
theorem occlusionStep_regions (f : Image → List ℚ) (patch inpAddr topIdx : Nat)
    (baseConf : ℚ) (acc : Store × List OcclRegion) (pos : Nat × Nat) :
    (occlusionStep f patch inpAddr topIdx baseConf acc pos).2 =
      acc.2 ++ [regionOf f patch topIdx baseConf (acc.1.getD inpAddr []) pos] := by
  have hset : ((acc.1 ++ [acc.1.getD inpAddr []]).set acc.1.length
      (occludeImage (acc.1.getD inpAddr []) pos.1 pos.2 patch)).getD acc.1.length [] =
      occludeImage (acc.1.getD inpAddr []) pos.1 pos.2 patch := by
    rw [List.getD_eq_getElem?_getD, List.getElem?_set_self (by simp)]
    rfl
  simp only [occlusionStep, regionOf, hset]

/-- The scan fold produces exactly one `regionOf` record per position, in
visit order, always measured against the unchanged input array. -/
theorem occlusionFold_regions (f : Image → List ℚ) (patch inpAddr topIdx : Nat)
    (baseConf : ℚ) (positions : List (Nat × Nat)) (acc : Store × List OcclRegion)
    (h : inpAddr < acc.1.length) :
    (positions.foldl (occlusionStep f patch inpAddr topIdx baseConf) acc).2 =
      acc.2 ++ positions.map
        (regionOf f patch topIdx baseConf (acc.1.getD inpAddr [])) := by
  induction positions generalizing acc with
  | nil => simp
  | cons p ps ih =>
    have h1 : inpAddr < (occlusionStep f patch inpAddr topIdx baseConf acc p).1.length := by
      rw [occlusionStep_length]; omega
    have hsame : (occlusionStep f patch inpAddr topIdx baseConf acc p).1.getD inpAddr [] =
        acc.1.getD inpAddr [] := by
      rw [List.getD_eq_getElem?_getD, List.getD_eq_getElem?_getD,
        occlusionStep_get f patch inpAddr topIdx baseConf acc p inpAddr h]
    calc (List.foldl (occlusionStep f patch inpAddr topIdx baseConf)
            (occlusionStep f patch inpAddr topIdx baseConf acc p) ps).2
        = (occlusionStep f patch inpAddr topIdx baseConf acc p).2 ++
            ps.map (regionOf f patch topIdx baseConf
              ((occlusionStep f patch inpAddr topIdx baseConf acc p).1.getD inpAddr [])) :=
          ih _ h1
      _ = acc.2 ++ (p :: ps).map (regionOf f patch topIdx baseConf (acc.1.getD inpAddr [])) := by
          rw [hsame, occlusionStep_regions]
          simp

/-- If either dimension is smaller than the patch, the grid of one axis is
empty. -/
theorem occlusionGrid_nil (dim patch stride : Nat) (h : dim < patch) :
    occlusionGrid dim patch stride = [] := by
  simp only [occlusionGrid, if_pos (by omega : dim + 1 ≤ patch)]

/-- If either dimension is smaller than the patch, the scan visits no
position at all. -/
theorem occlusionPositions_nil (H W patch stride : Nat)
    (h : H < patch ∨ W < patch) :
    occlusionPositions H W patch stride = [] := by
  rcases h with h | h
  · simp [occlusionPositions, occlusionGrid_nil H patch stride h]
  · simp [occlusionPositions, occlusionGrid_nil W patch stride h]

/-- C10.  For an input whose height or width is strictly smaller than the
patch size, the scan returns an empty `regions` list but still reports the
base prediction index, the base confidence and the grid parameters — and
the store is untouched (no copy is ever made). -/
theorem occlusion_small_input_c10 (f : Image → List ℚ) (store : Store)
    (inpAddr patch stride topK : Nat)
    (hsmall : imgHeight (store.getD inpAddr []) < patch ∨
      imgWidth (store.getD inpAddr []) < patch) :
    (compute_occlusion_sensitivity f store inpAddr patch stride topK).2 =
      { predicted_index := argmaxFirst (f (store.getD inpAddr [])),
        base_confidence :=
          (f (store.getD inpAddr [])).getD (argmaxFirst (f (store.getD inpAddr []))) 0,
        regions := [],
        grid := { patchSize := patch, stride := stride,
                  height := imgHeight (store.getD inpAddr []),
                  width := imgWidth (store.getD inpAddr []) } } ∧
    (compute_occlusion_sensitivity f store inpAddr patch stride topK).1 = store := by
  have hpos := occlusionPositions_nil (imgHeight (store.getD inpAddr []))
    (imgWidth (store.getD inpAddr [])) patch stride hsmall
  constructor <;>
    simp only [compute_occlusion_sensitivity, occlusionScan, hpos, List.foldl_nil,
      List.insertionSort, List.take_nil]

/-- Witness for `occlusion_small_input_c10`: a 2×2 image scanned with a
3-pixel patch yields no region but keeps the base prediction and grid. -/
theorem occlusion_small_input_c10_witness :
    (compute_occlusion_sensitivity toyModel [img2] 0 3 1 5).2 =
      { predicted_index := argmaxFirst (toyModel (([img2] : Store).getD 0 [])),
        base_confidence := (toyModel (([img2] : Store).getD 0 [])).getD
          (argmaxFirst (toyModel (([img2] : Store).getD 0 []))) 0,
        regions := [],
        grid := { patchSize := 3, stride := 1,
                  height := imgHeight (([img2] : Store).getD 0 []),
                  width := imgWidth (([img2] : Store).getD 0 []) } } ∧
    (compute_occlusion_sensitivity toyModel [img2] 0 3 1 5).1 = [img2] :=
  occlusion_small_input_c10 toyModel [img2] 0 3 1 5 (Or.inl (by decide))

/-- C4.  For `patchSize = 48`, `stride = 32` on a `224 × 224` input: the
axis grid is exactly `[0, 32, 64, 96, 128, 160]` (six positions, each with
`coordinate + 48 ≤ 224`), the scan visits `36` candidate regions, the
returned list keeps at most `min(topK, 36)` of them, it is sorted
descending by `delta`, and every returned record is the `regionOf` record
of one grid position — `delta = base confidence − confidence on the
occluded copy, at the top predicted class`. -/
theorem occlusion_grid_sorted_c4 (f : Image → List ℚ) (store : Store)
    (inpAddr topK : Nat) (ha : inpAddr < store.length)
    (hH : imgHeight (store.getD inpAddr []) = 224)
    (hW : imgWidth (store.getD inpAddr []) = 224) :
    occlusionGrid 224 48 32 = [0, 32, 64, 96, 128, 160] ∧
    (occlusionPositions 224 224 48 32).length = 36 ∧
    (occlusionScan f store inpAddr 48 32).2.length = 36 ∧
    (compute_occlusion_sensitivity f store inpAddr 48 32 topK).2.regions.length ≤
      min topK 36 ∧
    List.Pairwise (fun a b : OcclRegion => b.delta ≤ a.delta)
      (compute_occlusion_sensitivity f store inpAddr 48 32 topK).2.regions ∧
    (∀ r ∈ (compute_occlusion_sensitivity f store inpAddr 48 32 topK).2.regions,
      ∃ pos ∈ occlusionPositions 224 224 48 32,
        r = regionOf f 48 (argmaxFirst (f (store.getD inpAddr [])))
          ((f (store.getD inpAddr [])).getD (argmaxFirst (f (store.getD inpAddr []))) 0)
          (store.getD inpAddr []) pos) := by
  have hscan : (occlusionScan f store inpAddr 48 32).2 =
      (occlusionPositions 224 224 48 32).map
        (regionOf f 48 (argmaxFirst (f (store.getD inpAddr [])))
          ((f (store.getD inpAddr [])).getD (argmaxFirst (f (store.getD inpAddr []))) 0)
          (store.getD inpAddr [])) := by
    simp only [occlusionScan]
    rw [hH, hW, occlusionFold_regions f 48 inpAddr _ _ _ (store, []) ha]
    simp
  have hlen : (occlusionScan f store inpAddr 48 32).2.length = 36 := by
    rw [hscan, List.length_map]
    decide
  have hregions : (compute_occlusion_sensitivity f store inpAddr 48 32 topK).2.regions =
      (List.insertionSort (fun a b : OcclRegion => b.delta ≤ a.delta)
        (occlusionScan f store inpAddr 48 32).2).take topK := by
    simp only [compute_occlusion_sensitivity]
  haveI : IsTotal OcclRegion (fun a b : OcclRegion => b.delta ≤ a.delta) :=
    ⟨fun a b => le_total b.delta a.delta⟩
  haveI : IsTrans OcclRegion (fun a b : OcclRegion => b.delta ≤ a.delta) :=
    ⟨fun _ _ _ h1 h2 => le_trans h2 h1⟩
  refine ⟨by decide, by decide, hlen, ?_, ?_, ?_⟩
  · rw [hregions, List.length_take, List.length_insertionSort, hlen]
  · rw [hregions]
    exact List.Pairwise.sublist (List.take_sublist topK _)
      (List.sorted_insertionSort (fun a b : OcclRegion => b.delta ≤ a.delta) _)
  · intro r hr
    rw [hregions] at hr
    have hr2 : r ∈ (occlusionScan f store inpAddr 48 32).2 :=
      List.mem_insertionSort _ |>.1 (List.mem_of_mem_take hr)
    rw [hscan] at hr2
    obtain ⟨pos, hpos, hrfl⟩ := List.mem_map.1 hr2
    exact ⟨pos, hpos, hrfl.symm⟩

set_option maxRecDepth 8000 in
/-- Witness for `occlusion_grid_sorted_c4` on a concrete 224×224 image. -/
theorem occlusion_grid_sorted_c4_witness :
    occlusionGrid 224 48 32 = [0, 32, 64, 96, 128, 160] ∧
    (occlusionPositions 224 224 48 32).length = 36 ∧
    (occlusionScan toyModel [img224] 0 48 32).2.length = 36 ∧
    (compute_occlusion_sensitivity toyModel [img224] 0 48 32 5).2.regions.length ≤
      min 5 36 ∧
    List.Pairwise (fun a b : OcclRegion => b.delta ≤ a.delta)
      (compute_occlusion_sensitivity toyModel [img224] 0 48 32 5).2.regions :=
  have h := occlusion_grid_sorted_c4 toyModel [img224] 0 5 (by decide) (by decide)
    (by decide)
  ⟨h.1, h.2.1, h.2.2.1, h.2.2.2.1, h.2.2.2.2.1⟩

/-- `zipWith` against a constant-mapped list of the same length is a map. -/
theorem zipWith_map_const_right {α β : Type} (op : α → β → α) (c : β) :
    ∀ (l : List α) (m : List β), l.length = m.length →
      List.zipWith op l (m.map (fun _ => c)) = l.map (fun q => op q c) := by
  intro l
  induction l with
  | nil => intro m _; rfl
  | cons a t ih =>
    intro m hm
    cases m with
    | nil => simp at hm
    | cons b s => simpa using ih s (by simpa using hm)

/-- `zipWith` from a constant-mapped list of the same length is a map. -/
theorem zipWith_map_const_left {α β : Type} (op : α → β → β) (c : α) :
    ∀ (l : List α) (m : List β), l.length = m.length →
      List.zipWith op (l.map (fun _ => c)) m = m.map (fun q => op c q) := by
  intro l
  induction l with
  | nil =>
    intro m hm
    have hm0 : m = [] := List.length_eq_zero.mp (by simpa using hm.symm)
    subst hm0
    rfl
  | cons a t ih =>
    intro m hm
    cases m with
    | nil => simp at hm
    | cons b s => simpa using ih s (by simpa using hm)

/-- Row-level (2-D) version of `zipWith_map_const_right`. -/
theorem zipRows_map_const_right (op : ℚ → ℚ → ℚ) (c : ℚ) :
    ∀ (r s : List (List ℚ)), r.map List.length = s.map List.length →
      List.zipWith (List.zipWith op) r (s.map (List.map (fun _ => c))) =
        r.map (List.map (fun q => op q c)) := by
  intro r
  induction r with
  | nil => intro s _; simp
  | cons a t ih =>
    intro s hs
    cases s with
    | nil => simp at hs
    | cons b u =>
      simp only [List.map_cons, List.cons.injEq] at hs
      simp only [List.map_cons, List.zipWith_cons_cons, List.cons.injEq]
      exact ⟨zipWith_map_const_right op c a b hs.1, ih u hs.2⟩

/-- Row-level (2-D) version of `zipWith_map_const_left`. -/
theorem zipRows_map_const_left (op : ℚ → ℚ → ℚ) (c : ℚ) :
    ∀ (r s : List (List ℚ)), r.map List.length = s.map List.length →
      List.zipWith (List.zipWith op) (r.map (List.map (fun _ => c))) s =
        s.map (List.map (fun q => op c q)) := by
  intro r
  induction r with
  | nil =>
    intro s hs
    have hs0 : s = [] := by
      have := congrArg List.length hs
      simpa using (List.length_eq_zero.mp (by simpa using this.symm))
    subst hs0
    rfl
  | cons a t ih =>
    intro s hs
    cases s with
    | nil => simp at hs
    | cons b u =>
      simp only [List.map_cons, List.cons.injEq] at hs
      simp only [List.map_cons, List.zipWith_cons_cons, List.cons.injEq]
      exact ⟨zipWith_map_const_left op c a b hs.1, ih u hs.2⟩

/-- Image-level (3-D) version: zipping against a constant image of the same
shape is an elementwise map. -/
theorem imgZip_const_right (op : ℚ → ℚ → ℚ) (c : ℚ) :
    ∀ (A B : Image), imgShape A = imgShape B →
      imgZip op A (imgMap (fun _ => c) B) = imgMap (fun q => op q c) A := by
  intro A
  induction A with
  | nil => intro B _; simp [imgZip, imgMap]
  | cons a t ih =>
    intro B hB
    cases B with
    | nil => simp [imgShape] at hB
    | cons b u =>
      simp only [imgShape, List.map_cons, List.cons.injEq] at hB
      simp only [imgZip, imgMap, List.map_cons, List.zipWith_cons_cons,
        List.cons.injEq] at ih ⊢
      exact ⟨zipRows_map_const_right op c a b hB.1, ih u (by simpa [imgShape] using hB.2)⟩

/-- Image-level (3-D): zipping from a constant image of the same shape is
an elementwise map of the other argument. -/
theorem imgZip_const_left (op : ℚ → ℚ → ℚ) (c : ℚ) :
    ∀ (A B : Image), imgShape A = imgShape B →
      imgZip op (imgMap (fun _ => c) A) B = imgMap (fun q => op c q) B := by
  intro A
  induction A with
  | nil =>
    intro B hB
    have hB0 : B = [] := by
      have := congrArg List.length hB
      simpa [imgShape] using (List.length_eq_zero.mp (by simpa [imgShape] using this.symm))
    subst hB0
    rfl
  | cons a t ih =>
    intro B hB
    cases B with
    | nil => simp [imgShape] at hB
    | cons b u =>
      simp only [imgShape, List.map_cons, List.cons.injEq] at hB
      simp only [imgZip, imgMap, List.map_cons, List.zipWith_cons_cons,
        List.cons.injEq] at ih ⊢
      exact ⟨zipRows_map_const_left op c a b hB.1, ih u (by simpa [imgShape] using hB.2)⟩

/-- `imgMap` preserves the shape. -/
theorem imgShape_imgMap (g : ℚ → ℚ) (A : Image) :
    imgShape (imgMap g A) = imgShape A := by
  simp [imgShape, imgMap, List.map_map, Function.comp_def]

/-- Zipping two images of equal shape preserves that shape. -/
theorem imgShape_imgZip (op : ℚ → ℚ → ℚ) :
    ∀ (A B : Image), imgShape A = imgShape B →
      imgShape (imgZip op A B) = imgShape A := by
  intro A
  induction A with
  | nil => intro B _; rfl
  | cons a t ih =>
    intro B hB
    cases B with
    | nil => simp [imgShape] at hB
    | cons b u =>
      simp only [imgShape, List.map_cons, List.cons.injEq] at hB
      simp only [imgZip, imgShape, List.map_cons, List.zipWith_cons_cons,
        List.cons.injEq]
      constructor
      · clear ih
        induction a generalizing b with
        | nil => rfl
        | cons px pxs ihp =>
          cases b with
          | nil => simp at hB
          | cons pb pbs =>
            simp only [List.map_cons, List.cons.injEq] at hB
            simp only [List.zipWith_cons_cons, List.map_cons, List.cons.injEq]
            refine ⟨by simp [hB.1.1], ihp pbs ⟨hB.1.2, hB.2⟩⟩
      · have := ih u (by simpa [imgShape] using hB.2)
        simpa [imgShape, imgZip] using this

/-- Pointwise-equal functions give equal elementwise maps. -/
theorem imgMap_congr (f g : ℚ → ℚ) (h : ∀ q, f q = g q) (A : Image) :
    imgMap f A = imgMap g A := by
  have : f = g := funext h
  rw [this]

/-- The identity elementwise map. -/
theorem imgMap_id (A : Image) : imgMap (fun q => q) A = A := by
  simp [imgMap]

/-- Every element of a `zipWith` comes from a pair of elements. -/
theorem mem_zipWith_ex {α β γ : Type} (f : α → β → γ) :
    ∀ (l₁ : List α) (l₂ : List β) (v : γ), v ∈ List.zipWith f l₁ l₂ →
      ∃ x ∈ l₁, ∃ y ∈ l₂, v = f x y := by
  intro l₁
  induction l₁ with
  | nil => intro l₂ v hv; simp at hv
  | cons a t ih =>
    intro l₂ v hv
    cases l₂ with
    | nil => simp at hv
    | cons b s =>
      rcases List.mem_cons.1 hv with h | h
      · exact ⟨a, List.mem_cons_self a t, b, List.mem_cons_self b s, h⟩
      · obtain ⟨x, hx, y, hy, hxy⟩ := ih s v h
        exact ⟨x, List.mem_cons_of_mem a hx, y, List.mem_cons_of_mem b hy, hxy⟩

/-- Every entry of `imgConstLike img b` equals `b`. -/
theorem imgConstLike_entries (img : Image) (b : ℚ) :
    ∀ row ∈ imgConstLike img b, ∀ px ∈ row, ∀ v ∈ px, v = b := by
  intro row hrow px hpx v hv
  simp only [imgConstLike, imgMap] at hrow
  obtain ⟨row0, _, hrow0⟩ := List.mem_map.1 hrow
  subst hrow0
  obtain ⟨px0, _, hpx0⟩ := List.mem_map.1 hpx
  subst hpx0
  obtain ⟨v0, _, hv0⟩ := List.mem_map.1 hv
  exact hv0.symm

/-- If an image equals the constant image of value `b` of its own shape,
the elementwise difference with that constant image is all zero. -/
theorem imgZip_sub_self_entries (inp : Image) (b : ℚ)
    (hconst : inp = imgConstLike inp b) :
    ∀ row ∈ imgZip (· - ·) inp (imgConstLike inp b),
      ∀ px ∈ row, ∀ v ∈ px, v = 0 := by
  intro row hrow px hpx v hv
  simp only [imgZip] at hrow
  obtain ⟨ri, hri, rb, hrb, rfl⟩ := mem_zipWith_ex _ _ _ row hrow
  obtain ⟨pi, hpi, pb, hpb, rfl⟩ := mem_zipWith_ex _ _ _ px hpx
  obtain ⟨xi, hxi, xb, hxb, rfl⟩ := mem_zipWith_ex _ _ _ v hv
  have hxb0 : xb = b := imgConstLike_entries inp b rb hrb pb hpb xb hxb
  have hxi0 : xi = b := by
    rw [hconst] at hri
    exact imgConstLike_entries _ b ri hri pi hpi xi hxi
  rw [hxi0, hxb0, sub_self]

/-- C5.  Integrated gradients degeneracies.  (i) With `steps = 1`,
`tf.linspace(0, 1, 1) = [0]`, so the scaled attributions are exactly a
single-point gradient multiplied elementwise by `(input − baseline)` (the
division by `steps = 1` is the identity).  (ii) With `baseline == input`
(the input is the constant image of the baseline value), the returned
signed map is identically zero — `(input − baseline)` is the zero image,
so zeroness survives the accumulation, the channel mean and the final
rescaling by the guarded maximum. -/
theorem integrated_gradients_degenerate_c5 :
    (∀ (g : Image → Image) (inp : Image) (b : ℚ),
      imgShape (g (imgConstLike inp b)) = imgShape inp →
      igScaledAttributions g inp b 1 =
        imgZip (· * ·) (g (imgConstLike inp b))
          (imgZip (· - ·) inp (imgConstLike inp b))) ∧
    (∀ (g : Image → Image) (inp : Image) (b : ℚ) (steps tgt : Nat),
      inp = imgConstLike inp b →
      ∃ s, (compute_integrated_gradients g inp tgt b steps true).signed_map = some s ∧
        matAllZero s) := by
  constructor
  · intro g inp b hg
    have hbase : imgShape (imgConstLike inp b) = imgShape inp := imgShape_imgMap _ _
    have hdiff : imgShape (imgZip (· - ·) inp (imgConstLike inp b)) = imgShape inp :=
      imgShape_imgZip _ inp _ hbase.symm
    have hlin : linspace01 1 = [0] := by decide
    simp only [igScaledAttributions, hlin, List.foldl_cons, List.foldl_nil]
    have e1 : imgMap (fun d => (0 : ℚ) * d) (imgZip (· - ·) inp (imgConstLike inp b)) =
        imgMap (fun _ => (0 : ℚ)) (imgZip (· - ·) inp (imgConstLike inp b)) :=
      imgMap_congr _ _ (fun q => zero_mul q) _
    have e2 : imgZip (· + ·) (imgConstLike inp b)
        (imgMap (fun _ => (0 : ℚ)) (imgZip (· - ·) inp (imgConstLike inp b))) =
        imgConstLike inp b := by
      rw [imgZip_const_right (· + ·) 0 _ _ (hbase.trans hdiff.symm)]
      rw [imgMap_congr _ _ (fun q => add_zero q) _, imgMap_id]
    have e3 : imgZip (· + ·) (imgConstLike inp 0) (g (imgConstLike inp b)) =
        g (imgConstLike inp b) := by
      have : imgConstLike inp 0 = imgMap (fun _ => (0 : ℚ)) inp := rfl
      rw [this, imgZip_const_left (· + ·) 0 inp _ hg.symm]
      rw [imgMap_congr _ _ (fun q => zero_add q) _, imgMap_id]
    have e4 : imgMap (fun d => d / ((1 : Nat) : ℚ))
        (imgZip (· - ·) inp (imgConstLike inp b)) =
        imgZip (· - ·) inp (imgConstLike inp b) := by
      rw [imgMap_congr (fun d => d / ((1 : Nat) : ℚ)) (fun q => q)
        (fun q => by norm_num) _, imgMap_id]
    rw [e1, e2, e3, e4]
  · intro g inp b steps tgt hconst
    have hD := imgZip_sub_self_entries inp b hconst
    have hD2 : ∀ row ∈ imgMap (fun d => d / ((steps : Nat) : ℚ))
        (imgZip (· - ·) inp (imgConstLike inp b)),
        ∀ px ∈ row, ∀ v ∈ px, v = 0 := by
      intro row hrow px hpx v hv
      simp only [imgMap] at hrow
      obtain ⟨row0, hrow0, rfl⟩ := List.mem_map.1 hrow
      obtain ⟨px0, hpx0, rfl⟩ := List.mem_map.1 hpx
      obtain ⟨v0, hv0, rfl⟩ := List.mem_map.1 hv
      rw [hD row0 hrow0 px0 hpx0 v0 hv0, zero_div]
    have hscaled : ∀ row ∈ igScaledAttributions g inp b steps,
        ∀ px ∈ row, ∀ v ∈ px, v = 0 := by
      intro row hrow px hpx v hv
      simp only [igScaledAttributions, imgZip] at hrow
      obtain ⟨ra, hra, rd, hrd, rfl⟩ := mem_zipWith_ex _ _ _ row hrow
      obtain ⟨pa, hpa, pd, hpd, rfl⟩ := mem_zipWith_ex _ _ _ px hpx
      obtain ⟨x, hx, y, hy, rfl⟩ := mem_zipWith_ex _ _ _ v hv
      have hy0 : y = 0 := by
        refine hD2 rd ?_ pd hpd y hy
        simpa [imgZip] using hrd
      rw [hy0, mul_zero]
    refine ⟨_, rfl, ?_⟩
    intro row hrow v hv
    obtain ⟨row0, hrow0, rfl⟩ := List.mem_map.1 hrow
    obtain ⟨v0, hv0, rfl⟩ := List.mem_map.1 hv
    simp only [channelMean] at hrow0
    obtain ⟨rowS, hrowS, rfl⟩ := List.mem_map.1 hrow0
    obtain ⟨px, hpx, rfl⟩ := List.mem_map.1 hv0
    have hsum : px.sum = 0 :=
      List.sum_eq_zero (fun u hu => hscaled rowS hrowS px hpx u hu)
    rw [hsum, zero_div, zero_div]

/-- Witness for `integrated_gradients_degenerate_c5` with the identity as
gradient oracle, a concrete 2×2 image for the `steps = 1` half and a
constant image for the `baseline == input` half. -/
theorem integrated_gradients_degenerate_c5_witness :
    igScaledAttributions (fun x => x) img2 5 1 =
      imgZip (· * ·) ((fun x => x) (imgConstLike img2 5))
        (imgZip (· - ·) img2 (imgConstLike img2 5)) ∧
    matAllZero ((compute_integrated_gradients (fun x => x) (imgConstLike img2 4) 0 4 24
        true).signed_map.getD []) :=
  ⟨integrated_gradients_degenerate_c5.1 (fun x => x) img2 5 (by decide),
   by
    obtain ⟨s, hs, hz⟩ := integrated_gradients_degenerate_c5.2 (fun x => x)
      (imgConstLike img2 4) 4 24 0 (by decide)
    rw [hs]
    exact hz⟩

/-- Every member of a list is bounded by its `foldr max` with any seed. -/
theorem foldr_max_le_mem : ∀ (l : List ℚ) (a x : ℚ), x ∈ l → x ≤ l.foldr max a := by
  intro l
  induction l with
  | nil => intro a x hx; simp at hx
  | cons b t ih =>
    intro a x hx
    rcases List.mem_cons.1 hx with h | h
    · subst h; exact le_max_left _ _
    · exact le_trans (ih a x h) (le_max_right _ _)

/-- The seed is bounded by the `foldr max`. -/
theorem foldr_max_init (l : List ℚ) (a : ℚ) : a ≤ l.foldr max a := by
  induction l with
  | nil => exact le_refl a
  | cons b t ih => exact le_trans ih (le_max_right _ _)

/-- The two guarantees of the shared ReLU-and-normalise step: outputs in
`[0, 1]`, and an all-zero (maximum `0`) pre-normalisation map comes out
all-zero (the `tf.where(max_val > 0, …)` guard, never NaN/Inf). -/
theorem normalizeHeatmap_cases (m : List (List ℚ)) :
    (∀ row ∈ normalizeHeatmap m, ∀ v ∈ row, 0 ≤ v ∧ v ≤ 1) ∧
    (matFoldMax (reluMat m) = 0 → matAllZero (normalizeHeatmap m)) := by
  have h0 : ∀ row ∈ reluMat m, ∀ v ∈ row, 0 ≤ v := by
    intro row hrow v hv
    simp only [reluMat] at hrow
    obtain ⟨row0, _, rfl⟩ := List.mem_map.1 hrow
    obtain ⟨v0, _, rfl⟩ := List.mem_map.1 hv
    exact le_max_right _ _
  have hle : ∀ row ∈ reluMat m, ∀ v ∈ row, v ≤ matFoldMax (reluMat m) := by
    intro row hrow v hv
    exact foldr_max_le_mem _ 0 v (List.mem_flatten.2 ⟨row, hrow, hv⟩)
  have hnorm : normalizeHeatmap m =
      if 0 < matFoldMax (reluMat m) then
        (reluMat m).map (List.map (fun v => v / (matFoldMax (reluMat m) + 1e-12)))
      else reluMat m := rfl
  by_cases hpos : 0 < matFoldMax (reluMat m)
  · constructor
    · intro row hrow v hv
      rw [hnorm, if_pos hpos] at hrow
      obtain ⟨row0, hrow0, rfl⟩ := List.mem_map.1 hrow
      obtain ⟨v0, hv0, rfl⟩ := List.mem_map.1 hv
      have hden : (0 : ℚ) < matFoldMax (reluMat m) + 1e-12 := by
        have : (0 : ℚ) < 1e-12 := by norm_num
        linarith
      constructor
      · exact div_nonneg (h0 row0 hrow0 v0 hv0) hden.le
      · rw [div_le_one hden]
        have := hle row0 hrow0 v0 hv0
        have : v0 ≤ matFoldMax (reluMat m) := this
        linarith [this]
    · intro hz
      rw [hz] at hpos
      exact absurd hpos (lt_irrefl 0)
  · have hz : matFoldMax (reluMat m) ≤ 0 := not_lt.1 hpos
    constructor
    · intro row hrow v hv
      rw [hnorm, if_neg hpos] at hrow
      refine ⟨h0 row hrow v hv, ?_⟩
      have := hle row hrow v hv
      have h1 : v ≤ 0 := le_trans this hz
      linarith
    · intro _ row hrow v hv
      rw [hnorm, if_neg hpos] at hrow
      exact le_antisymm (le_trans (hle row hrow v hv) hz) (h0 row hrow v hv)

/-- C7.  Both saliency computations — Grad-CAM (weighted conv activation)
and the input-gradient fallback (per-pixel max absolute channel gradient)
— produce heatmaps with every value in `[0, 1]`, and an all-zero
pre-normalisation heatmap (maximum `= 0`) yields an all-zero output rather
than NaN/Inf, thanks to the explicit `tf.where(max_val > 0, …)` guard. -/
theorem heatmap_unit_range_c7 :
    (∀ (pooled : List ℚ) (conv : List (List (List ℚ))),
      (∀ row ∈ make_gradcam_heatmap pooled conv, ∀ v ∈ row, 0 ≤ v ∧ v ≤ 1) ∧
      (matFoldMax (reluMat (gradcamRaw pooled conv)) = 0 →
        matAllZero (make_gradcam_heatmap pooled conv))) ∧
    (∀ grads : Image,
      (∀ row ∈ make_input_gradient_heatmap grads, ∀ v ∈ row, 0 ≤ v ∧ v ≤ 1) ∧
      (matFoldMax (reluMat (inputGradAbsMax grads)) = 0 →
        matAllZero (make_input_gradient_heatmap grads))) :=
  ⟨fun pooled conv => normalizeHeatmap_cases (gradcamRaw pooled conv),
   fun grads => normalizeHeatmap_cases (inputGradAbsMax grads)⟩

/-- Witness for `heatmap_unit_range_c7`: a negative conv activation gives a
zero pre-normalisation map and an all-zero heatmap, and likewise for a zero
input gradient. -/
theorem heatmap_unit_range_c7_witness :
    matAllZero (make_gradcam_heatmap [1] [[[-1]]]) ∧
    matAllZero (make_input_gradient_heatmap [[[0]]]) :=
  ⟨(heatmap_unit_range_c7.1 [1] [[[-1]]]).2 (by decide),
   (heatmap_unit_range_c7.2 [[[0]]]).2 (by decide)⟩

/-- The positive-clip row sum is non-negative. -/
theorem rowPosSum_nonneg (row : List ℚ) :
    0 ≤ (row.map (fun v => max v 0)).sum :=
  List.sum_nonneg (by
    intro x hx
    obtain ⟨v, _, rfl⟩ := List.mem_map.1 hx
    exact le_max_right _ _)

/-- The global positive mass is non-negative. -/
theorem clipPosSum_nonneg (m : List (List ℚ)) : 0 ≤ clipPosSum m :=
  List.sum_nonneg (by
    intro x hx
    obtain ⟨row, _, rfl⟩ := List.mem_map.1 hx
    exact rowPosSum_nonneg row)

/-- Dual of `List.Sublist.sum_le_sum`: dropping non-positive entries can
only increase the sum. -/
theorem sublist_sum_ge_of_nonpos {l₁ l₂ : List ℚ} (h : l₁.Sublist l₂)
    (h₁ : ∀ a ∈ l₂, a ≤ 0) : l₂.sum ≤ l₁.sum := by
  induction h with
  | slnil => exact le_refl _
  | cons a _ ih =>
    rename_i l₁' l₂' _
    simp only [List.sum_cons, List.forall_mem_cons] at h₁ ⊢
    have := ih h₁.2
    linarith [h₁.1]
  | cons₂ a _ ih =>
    rename_i l₁' l₂' _
    simp only [List.sum_cons, List.forall_mem_cons] at h₁ ⊢
    have := ih h₁.2
    linarith

/-- The negative-clip row sum is non-positive. -/
theorem rowNegSum_nonpos (row : List ℚ) :
    (row.map (fun v => min v 0)).sum ≤ 0 :=
  sublist_sum_ge_of_nonpos (List.nil_sublist _) (by
    intro x hx
    obtain ⟨v, _, rfl⟩ := List.mem_map.1 hx
    exact min_le_right _ _)

/-- The global negative mass is non-positive. -/
theorem clipNegSum_nonpos (m : List (List ℚ)) : clipNegSum m ≤ 0 :=
  sublist_sum_ge_of_nonpos (List.nil_sublist _) (by
    intro x hx
    obtain ⟨row, _, rfl⟩ := List.mem_map.1 hx
    exact rowNegSum_nonpos row)

/-- A row slice is a sublist of the row. -/
theorem slice_sublist {α : Type} (l : List α) (x w : Nat) :
    ((l.drop x).take w).Sublist l :=
  (List.take_sublist w (l.drop x)).trans (List.drop_sublist x l)

/-- The positive mass of a slice is at most the global positive mass. -/
theorem clipPosSum_slice_le (m : List (List ℚ)) (x y w h : Nat) :
    clipPosSum (matSlice m x y w h) ≤ clipPosSum m := by
  have hstep1 : clipPosSum (matSlice m x y w h) =
      (((m.drop y).take h).map
        (fun row => (((row.drop x).take w).map (fun v => max v 0)).sum)).sum := by
    simp [clipPosSum, matSlice, List.map_map, Function.comp_def]
  rw [hstep1]
  have hstep2 : (((m.drop y).take h).map
      (fun row => (((row.drop x).take w).map (fun v => max v 0)).sum)).sum ≤
      (((m.drop y).take h).map (fun row => (row.map (fun v => max v 0)).sum)).sum := by
    apply List.sum_le_sum
    intro row _
    exact List.Sublist.sum_le_sum
      (List.Sublist.map _ (slice_sublist row x w))
      (by
        intro a ha
        obtain ⟨v, _, rfl⟩ := List.mem_map.1 ha
        exact le_max_right _ _)
  refine le_trans hstep2 ?_
  exact List.Sublist.sum_le_sum
    (List.Sublist.map _ (slice_sublist m y h))
    (by
      intro a ha
      obtain ⟨row, _, rfl⟩ := List.mem_map.1 ha
      exact rowPosSum_nonneg row)

/-- The negative mass of a slice is at least the global negative mass. -/
theorem clipNegSum_ge_slice (m : List (List ℚ)) (x y w h : Nat) :
    clipNegSum m ≤ clipNegSum (matSlice m x y w h) := by
  have hstep1 : clipNegSum (matSlice m x y w h) =
      (((m.drop y).take h).map
        (fun row => (((row.drop x).take w).map (fun v => min v 0)).sum)).sum := by
    simp [clipNegSum, matSlice, List.map_map, Function.comp_def]
  rw [hstep1]
  have hstep2 : (((m.drop y).take h).map (fun row => (row.map (fun v => min v 0)).sum)).sum ≤
      (((m.drop y).take h).map
        (fun row => (((row.drop x).take w).map (fun v => min v 0)).sum)).sum := by
    apply List.sum_le_sum
    intro row _
    exact sublist_sum_ge_of_nonpos
      (List.Sublist.map _ (slice_sublist row x w))
      (by
        intro a ha
        obtain ⟨v, _, rfl⟩ := List.mem_map.1 ha
        exact min_le_right _ _)
  refine le_trans ?_ hstep2
  exact sublist_sum_ge_of_nonpos
    (List.Sublist.map _ (slice_sublist m y h))
    (by
      intro a ha
      obtain ⟨row, _, rfl⟩ := List.mem_map.1 ha
      exact rowNegSum_nonpos row)

/-- C6.  Every ROI record's `positivePercent` and `negativePercent` lie in
`[0, 100]` (a region's clipped mass cannot exceed the global clipped
mass); the returned list is non-increasing in
`max(positivePercent, negativePercent)` (Python's stable descending sort);
and when the global positive (resp. negative) mass is zero the
corresponding percent is `0` — the `or 1e-8` floor and the `neg_total < 0`
test, not a division by zero. -/
theorem roi_bounds_sorted_c6 (m : List (List ℚ)) (labels : Option (List String)) :
    (∀ r ∈ compute_roi_contributions m labels,
      0 ≤ r.positivePercent ∧ r.positivePercent ≤ 100 ∧
      0 ≤ r.negativePercent ∧ r.negativePercent ≤ 100) ∧
    List.Pairwise
      (fun a b : RoiRec =>
        max b.positivePercent b.negativePercent ≤
          max a.positivePercent a.negativePercent)
      (compute_roi_contributions m labels) ∧
    (clipPosSum m = 0 →
      ∀ r ∈ compute_roi_contributions m labels, r.positivePercent = 0) ∧
    (clipNegSum m = 0 →
      ∀ r ∈ compute_roi_contributions m labels, r.negativePercent = 0) := by
  have hmem : ∀ r ∈ compute_roi_contributions m labels,
      ∃ roi ∈ roiList m.length (m.getD 0 []).length,
        r = mkRoiRec m (if clipPosSum m = 0 then 1e-8 else clipPosSum m)
          (clipNegSum m) roi := by
    intro r hr
    simp only [compute_roi_contributions] at hr
    have hr2 := (List.mem_insertionSort _).1 hr
    obtain ⟨roi, hroi, rfl⟩ := List.mem_map.1 hr2
    exact ⟨roi, hroi, rfl⟩
  have hPT : (0 : ℚ) < (if clipPosSum m = 0 then 1e-8 else clipPosSum m) := by
    by_cases hz : clipPosSum m = 0
    · rw [if_pos hz]; norm_num
    · rw [if_neg hz]
      exact lt_of_le_of_ne (clipPosSum_nonneg m) (Ne.symm hz)
  have hposPcts : ∀ roi : String × List Nat,
      0 ≤ (mkRoiRec m (if clipPosSum m = 0 then 1e-8 else clipPosSum m)
        (clipNegSum m) roi).positivePercent ∧
      (mkRoiRec m (if clipPosSum m = 0 then 1e-8 else clipPosSum m)
        (clipNegSum m) roi).positivePercent ≤ 100 := by
    intro roi
    have hsub := clipPosSum_slice_le m (roi.2.getD 0 0) (roi.2.getD 1 0)
      (roi.2.getD 2 0) (roi.2.getD 3 0)
    have hsubnn := clipPosSum_nonneg
      (matSlice m (roi.2.getD 0 0) (roi.2.getD 1 0) (roi.2.getD 2 0) (roi.2.getD 3 0))
    have hle : clipPosSum
        (matSlice m (roi.2.getD 0 0) (roi.2.getD 1 0) (roi.2.getD 2 0) (roi.2.getD 3 0)) ≤
        (if clipPosSum m = 0 then 1e-8 else clipPosSum m) := by
      by_cases hz : clipPosSum m = 0
      · rw [if_pos hz]
        have : clipPosSum (matSlice m (roi.2.getD 0 0) (roi.2.getD 1 0)
            (roi.2.getD 2 0) (roi.2.getD 3 0)) ≤ 0 := hz ▸ hsub
        linarith [this]
      · rw [if_neg hz]; exact hsub
    simp only [mkRoiRec, if_pos hPT]
    constructor
    · positivity
    · have h1 : clipPosSum (matSlice m (roi.2.getD 0 0) (roi.2.getD 1 0)
          (roi.2.getD 2 0) (roi.2.getD 3 0)) /
          (if clipPosSum m = 0 then 1e-8 else clipPosSum m) ≤ 1 :=
        (div_le_one hPT).mpr hle
      nlinarith [h1, hPT]
  have hnegPcts : ∀ roi : String × List Nat,
      0 ≤ (mkRoiRec m (if clipPosSum m = 0 then 1e-8 else clipPosSum m)
        (clipNegSum m) roi).negativePercent ∧
      (mkRoiRec m (if clipPosSum m = 0 then 1e-8 else clipPosSum m)
        (clipNegSum m) roi).negativePercent ≤ 100 := by
    intro roi
    simp only [mkRoiRec]
    by_cases hneg : clipNegSum m < 0
    · rw [if_pos hneg]
      have habs : |clipNegSum
          (matSlice m (roi.2.getD 0 0) (roi.2.getD 1 0) (roi.2.getD 2 0)
            (roi.2.getD 3 0))| ≤ |clipNegSum m| := by
        have h1 := clipNegSum_ge_slice m (roi.2.getD 0 0) (roi.2.getD 1 0)
          (roi.2.getD 2 0) (roi.2.getD 3 0)
        have h2 := clipNegSum_nonpos
          (matSlice m (roi.2.getD 0 0) (roi.2.getD 1 0) (roi.2.getD 2 0) (roi.2.getD 3 0))
        rw [abs_of_nonpos h2, abs_of_nonpos (clipNegSum_nonpos m)]
        linarith
      have hNTpos : (0 : ℚ) < |clipNegSum m| := abs_pos.mpr (ne_of_lt hneg)
      constructor
      · positivity
      · have h1 : |clipNegSum (matSlice m (roi.2.getD 0 0) (roi.2.getD 1 0)
            (roi.2.getD 2 0) (roi.2.getD 3 0))| / |clipNegSum m| ≤ 1 :=
          (div_le_one hNTpos).mpr habs
        nlinarith [h1, hNTpos]
    · rw [if_neg hneg]
      norm_num
  refine ⟨?_, ?_, ?_, ?_⟩
  · intro r hr
    obtain ⟨roi, _, rfl⟩ := hmem r hr
    exact ⟨(hposPcts roi).1, (hposPcts roi).2, (hnegPcts roi).1, (hnegPcts roi).2⟩
  · haveI : IsTotal RoiRec (fun a b : RoiRec =>
        max b.positivePercent b.negativePercent ≤
          max a.positivePercent a.negativePercent) :=
      ⟨fun a b => le_total _ _⟩
    haveI : IsTrans RoiRec (fun a b : RoiRec =>
        max b.positivePercent b.negativePercent ≤
          max a.positivePercent a.negativePercent) :=
      ⟨fun _ _ _ h1 h2 => le_trans h2 h1⟩
    simp only [compute_roi_contributions]
    exact List.sorted_insertionSort _ _
  · intro hz r hr
    obtain ⟨roi, _, rfl⟩ := hmem r hr
    have hsubz : clipPosSum (matSlice m (roi.2.getD 0 0) (roi.2.getD 1 0)
        (roi.2.getD 2 0) (roi.2.getD 3 0)) = 0 := by
      have h1 := clipPosSum_slice_le m (roi.2.getD 0 0) (roi.2.getD 1 0)
        (roi.2.getD 2 0) (roi.2.getD 3 0)
      have h2 := clipPosSum_nonneg
        (matSlice m (roi.2.getD 0 0) (roi.2.getD 1 0) (roi.2.getD 2 0) (roi.2.getD 3 0))
      rw [hz] at h1
      linarith
    simp only [mkRoiRec, if_pos hPT, hsubz, zero_div, zero_mul]
  · intro hz r hr
    obtain ⟨roi, _, rfl⟩ := hmem r hr
    have hnotneg : ¬ clipNegSum m < 0 := by rw [hz]; exact lt_irrefl 0
    simp only [mkRoiRec, if_neg hnotneg]

/-- Witness for `roi_bounds_sorted_c6`: the Frontal-Lobe record of a 1×1
map (all five bounding boxes degenerate to `[0,0,0,0]`), once for a
positive map and once, through the zero-positive-mass guard, for a
negative map. -/
theorem roi_bounds_sorted_c6_witness :
    (0 ≤ (⟨"Frontal Lobe", [0, 0, 0, 0], 0, 0, "increased"⟩ : RoiRec).positivePercent ∧
      (⟨"Frontal Lobe", [0, 0, 0, 0], 0, 0, "increased"⟩ : RoiRec).positivePercent ≤ 100 ∧
      0 ≤ (⟨"Frontal Lobe", [0, 0, 0, 0], 0, 0, "increased"⟩ : RoiRec).negativePercent ∧
      (⟨"Frontal Lobe", [0, 0, 0, 0], 0, 0, "increased"⟩ : RoiRec).negativePercent ≤ 100) ∧
    (⟨"Frontal Lobe", [0, 0, 0, 0], 0, 0, "increased"⟩ : RoiRec).positivePercent = 0 :=
  ⟨(roi_bounds_sorted_c6 [[(1 : ℚ)]] none).1
      (⟨"Frontal Lobe", [0, 0, 0, 0], 0, 0, "increased"⟩ : RoiRec) (by decide),
   (roi_bounds_sorted_c6 [[(-1 : ℚ)]] none).2.2.1 (by decide)
      (⟨"Frontal Lobe", [0, 0, 0, 0], 0, 0, "increased"⟩ : RoiRec) (by decide)⟩

/-- C9.  `compute_roi_contributions` never reads its `labels` argument and
always returns records for exactly the five fixed proportional regions,
whose bounding boxes are derived from the map's own height and width; the
returned list is a permutation (by the final sort) of those five
name/bbox pairs. -/
theorem roi_fixed_regions_c9 (m : List (List ℚ)) (labels : Option (List String)) :
    compute_roi_contributions m labels = compute_roi_contributions m none ∧
    (compute_roi_contributions m labels).length = 5 ∧
    ((compute_roi_contributions m labels).map (fun r => (r.name, r.bbox))).Perm
      (roiList m.length (m.getD 0 []).length) := by
  refine ⟨rfl, ?_, ?_⟩
  · simp only [compute_roi_contributions, List.length_insertionSort, List.length_map]
    rfl
  · simp only [compute_roi_contributions]
    have hperm := (List.perm_insertionSort
      (fun a b : RoiRec =>
        max b.positivePercent b.negativePercent ≤
          max a.positivePercent a.negativePercent)
      ((roiList m.length (m.getD 0 []).length).map
        (mkRoiRec m (if clipPosSum m = 0 then 1e-8 else clipPosSum m)
          (clipNegSum m)))).map (fun r : RoiRec => (r.name, r.bbox))
    refine hperm.trans ?_
    rw [List.map_map]
    have hcomp : ((fun r : RoiRec => (r.name, r.bbox)) ∘
        mkRoiRec m (if clipPosSum m = 0 then 1e-8 else clipPosSum m)
          (clipNegSum m)) = fun roi : String × List Nat => (roi.1, roi.2) :=
      funext fun roi => rfl
    rw [hcomp]
    exact List.Perm.of_eq (by simp)

/-- Dividing every element by a scalar divides the sum. -/
theorem list_sum_map_div (l : List ℝ) (s : ℝ) :
    (l.map (fun e => e / s)).sum = l.sum / s := by
  induction l with
  | nil => simp
  | cons a t ih => simp [ih, add_div]

/-- C2 counterexample.  `[1, 0]` is probability-like (non-negative, sums to
exactly 1), yet the adapter does NOT use it as-is: line 136 branches on
`logits.ndim == 1` only, so softmax is re-applied to every 1-D output and
`probs` becomes `[e/(e+1), 1/(e+1)] ≠ [1, 0]`. -/
theorem calibration_problike_c2_counterexample :
    probLikeSpec [1, 0] ∧ probsOf (PredsArray.oneD [1, 0]) 1 ≠ PredsArray.oneD [1, 0] := by
  constructor
  · constructor
    · intro x hx
      rcases List.mem_cons.1 hx with h | h
      · rw [h]; norm_num
      · rcases List.mem_cons.1 h with h2 | h2
        · rw [h2]
        · simp at h2
    · norm_num
  · intro heq
    have h1 : calibrate1d [(1 : ℝ), 0] 1 = [1, 0] := by
      have := heq
      simp only [probsOf, PredsArray.oneD.injEq] at this
      exact this
    have hmax : max (1e-6 : ℝ) 1 = 1 := max_eq_right (by norm_num)
    have hlist : ([(1 : ℝ), 0].map (fun z => z / max 1e-6 1)) = [1, 0] := by
      rw [hmax]
      norm_num
    have hcal : calibrate1d [(1 : ℝ), 0] 1 =
        [Real.exp 1 / (Real.exp 1 + (Real.exp 0 + 0)),
         Real.exp 0 / (Real.exp 1 + (Real.exp 0 + 0))] := by
      rw [calibrate1d, hlist]
      simp [softmax]
    rw [hcal] at h1
    have h2 : Real.exp 0 / (Real.exp 1 + (Real.exp 0 + 0)) = 0 := by
      have := congrArg (fun l : List ℝ => l.getD 1 0) h1
      simpa using this
    have hS : (0 : ℝ) < Real.exp 1 + (Real.exp 0 + 0) := by positivity
    rcases div_eq_zero_iff.1 h2 with h3 | h3
    · exact absurd h3 (ne_of_gt (Real.exp_pos 0))
    · exact absurd h3 (ne_of_gt hS)

/-- C2 amended: the adapter applies `softmax(logits / max(1e-6, T))` to
EVERY 1-dimensional output, with no probability-likeness check (only
non-1-D outputs are passed through as-is), and on a non-empty vector the
result is a genuine distribution: it sums to 1. -/
theorem calibration_softmax_c2_amended (v : List ℝ) (T : ℝ) (hv : v ≠ []) :
    probsOf (PredsArray.oneD v) T =
      PredsArray.oneD (softmax (v.map (fun z => z / max 1e-6 T))) ∧
    (∀ a : List (List ℝ), probsOf (PredsArray.nd a) T = PredsArray.nd a) ∧
    (calibrate1d v T).sum = 1 := by
  refine ⟨rfl, fun a => rfl, ?_⟩
  have hw : (v.map (fun z => z / max 1e-6 T)) ≠ [] := by
    simpa using hv
  simp only [calibrate1d, softmax]
  rw [list_sum_map_div]
  have hpos : 0 < ((v.map (fun z => z / max 1e-6 T)).map Real.exp).sum := by
    apply List.sum_pos
    · intro x hx
      obtain ⟨z, _, rfl⟩ := List.mem_map.1 hx
      exact Real.exp_pos z
    · simpa using hv
  exact div_self (ne_of_gt hpos)

/-- Witness for `calibration_softmax_c2_amended` at `v = [1, 0]`, `T = 1`. -/
theorem calibration_softmax_c2_amended_witness :
    probsOf (PredsArray.oneD [(1 : ℝ), 0]) 1 =
      PredsArray.oneD (softmax ([(1 : ℝ), 0].map (fun z => z / max 1e-6 1))) ∧
    (calibrate1d [(1 : ℝ), 0] 1).sum = 1 :=
  ⟨(calibration_softmax_c2_amended [1, 0] 1 (by simp)).1,
   (calibration_softmax_c2_amended [1, 0] 1 (by simp)).2.2⟩
